import Mathlib

/-!
Verification development for the memristor-learning repository
(`memristor_learning/MemristorModels.py`, `memristor_learning/MemristorControllers.py`).

Shallow embedding conventions:
* Python floats are modelled exactly: the pulse quantizer (which only compares,
  takes min/max and does field arithmetic) is embedded over `ℚ` so that it is
  computable; device resistances and weights, which flow through real powers
  (`**` with non-integer exponents), are embedded over `ℝ` with `Real.rpow`.
* Python exceptions are modelled with `Except String`; a Python method that
  falls off its end and implicitly returns `None` is modelled as returning the
  value `Option.none` inside `Except.ok` (a normal return, not an error).
* Division is Lean's total field division.
-/

/-! ### Pulse quantizer (`MemristorControllers.py`, `VoltageConverter` and
`LevelsVoltageConverter`) -/

/-- Model of `np.linspace(a, b, num=k)` over `ℚ`: `k` evenly spaced points from
`a` to `b`, endpoints included (exact in rational arithmetic). -/
def linspace (a b : ℚ) (k : ℕ) : List ℚ :=
  if k = 0 then []
  else if k = 1 then [a]
  else (List.range k).map fun i : ℕ => a + (i : ℚ) * (b - a) / ((k : ℚ) - 1)

/-- Model of `np.searchsorted(steps, v, side="right")` for a sorted `steps`:
the index of the first element strictly greater than `v` (equivalently, for a
sorted list, the number of elements `≤ v`). -/
def searchsortedRight : List ℚ → ℚ → ℕ
  | [], _ => 0
  | x :: xs, v => if v < x then 0 else searchsortedRight xs v + 1

/-- The two quantizer classes of `MemristorControllers.py`:
`base lv` is `VoltageConverter` (constant output 1);
`levels lv smallest_seen largest_seen` is `LevelsVoltageConverter`, whose
mutable running extrema (both initialised to 0 at construction) are carried
explicitly. -/
inductive VoltageConverter
  | base (levels : ℕ)
  | levels (levels : ℕ) (smallest_seen largest_seen : ℚ)
deriving DecidableEq

/-- `__call__` of the quantizer classes.  The base class returns 1 and keeps no
state; `LevelsVoltageConverter.__call__` first widens the running extremes with
the incoming signal, then builds `steps = linspace(smallest, largest, levels)`
and returns `searchsorted(steps, signal, side="right")`. -/
def VoltageConverter.call : VoltageConverter → ℚ → ℕ × VoltageConverter
  | .base lv, _ => (1, .base lv)
  | .levels lv sm lg, signal =>
      let sm' := if signal < sm then signal else sm
      let lg' := if lg < signal then signal else lg
      let steps := linspace sm' lg' lv
      (searchsortedRight steps signal, .levels lv sm' lg')

/-- A freshly constructed `LevelsVoltageConverter(levels=lv)`:
`smallest_seen = largest_seen = 0`. -/
def freshLevels (lv : ℕ) : VoltageConverter := .levels lv 0 0

/-! ### Single device (`MemristorModels.py`, class `Memristor` and its law
subclasses) -/

/-- Model of `np.finfo(float).eps`, the machine epsilon added by `get_state`
before the gain multiplication. -/
noncomputable def machineEps : ℝ := (2 : ℝ) ^ (-52 : ℤ)

/-- Model of `np.sign` on the (rational-valued) drive signal. -/
def qsign (q : ℚ) : ℚ := if 0 < q then 1 else if q < 0 then -1 else 0

/-- Model of `np.rint`: round to the nearest integer, ties to even. -/
noncomputable def rint (x : ℝ) : ℤ :=
  if x - (⌊x⌋ : ℝ) < 1/2 then ⌊x⌋
  else if (1:ℝ)/2 < x - (⌊x⌋ : ℝ) then ⌊x⌋ + 1
  else if 2 ∣ ⌊x⌋ then ⌊x⌋ else ⌊x⌋ + 1

/-- State of one `Memristor` instance.  `r_0`/`r_1` are the law parameters set
by the concrete subclass constructors; `history` is the resistance history
appended to only by `save_state`; `base_voltage` and `gain` are the
constructor arguments of the same names.  The shared `voltage_converter`
object is threaded explicitly through `pulse` instead of being stored. -/
structure Memristor where
  r_curr : ℝ
  r_0 : ℝ
  r_1 : ℝ
  history : List ℝ
  base_voltage : ℝ
  gain : ℝ

/-- The `value == "conductance"` branch of `Memristor.get_state`:
`g_curr = 1/r_curr`, `g_min = 1/r_1`, `g_max = 1/r_0`, scaled to
`(g_curr - g_min)/(g_max - g_min)` when requested, plus machine epsilon,
times the gain. -/
noncomputable def Memristor.condVal (m : Memristor) (scaled : Bool) (gain : ℝ) : ℝ :=
  gain * ((if scaled then (1 / m.r_curr - 1 / m.r_1) / (1 / m.r_0 - 1 / m.r_1)
           else 1 / m.r_curr) + machineEps)

/-- The `value == "resistance"` branch of `Memristor.get_state`. -/
noncomputable def Memristor.resVal (m : Memristor) (scaled : Bool) (gain : ℝ) : ℝ :=
  gain * ((if scaled then (m.r_curr - m.r_0) / (m.r_1 - m.r_0)
           else m.r_curr) + machineEps)

/-- `Memristor.get_state(value, scaled, gain)`.  For a selector string other
than `"conductance"`/`"resistance"` the Python body never assigns `ret_val`
and the final `return gain * ret_val` raises `UnboundLocalError`; that raise
is modelled as `Except.error`. -/
noncomputable def Memristor.get_state (m : Memristor) (value : String) (scaled : Bool)
    (gain : ℝ) : Except String ℝ :=
  if value = "conductance" then .ok (m.condVal scaled gain)
  else if value = "resistance" then .ok (m.resVal scaled gain)
  else .error "UnboundLocalError"

/-- `Memristor.save_state()`: append the current resistance to the history. -/
noncomputable def Memristor.save_state (m : Memristor) : Memristor :=
  { m with history := m.history ++ [m.r_curr] }

/-- The law interface of the `Memristor` subclasses:
`compute_pulse_number(self, R, V)` and `compute_resistance(self, n, V)`.
`compute_pulse_number` returns `Option ℝ` because
`OnedirectionalPowerlawMemristor.compute_pulse_number` falls off the end of
the function (Python `None`) when `V < 0`.  Both receive the instance to read
its `r_0`, `r_1` (and, for the `V ≤ 0` branches of `compute_resistance`, its
`r_curr`) attributes. -/
structure DeviceLaw where
  compute_pulse_number : Memristor → ℝ → ℝ → Option ℝ
  compute_resistance : Memristor → ℝ → ℝ → ℝ

/-- The update loop inside `Memristor.pulse`: repeat `k` times
`pulse_number = compute_pulse_number(r_curr, V);`
`r_curr = compute_resistance(pulse_number + 1, V)`.
When `compute_pulse_number` returns `None`, the Python expression
`pulse_number + 1` raises `TypeError`. -/
noncomputable def pulseSteps (law : DeviceLaw) (V : ℝ) : ℕ → Memristor → Except String Memristor
  | 0, m => .ok m
  | k + 1, m =>
    match law.compute_pulse_number m m.r_curr V with
    | none => .error "TypeError"
    | some n => pulseSteps law V k { m with r_curr := law.compute_resistance m (n + 1) V }

/-- `Memristor.pulse(signal)`: `V = np.sign(signal) * base_voltage`;
`num_steps = voltage_converter(signal)` when `signal ≠ 0`, else 0 (the
quantizer is not consulted for a zero signal); run the update loop; return
`get_state(gain=self.gain)` (selector and scaling at their defaults).
The shared quantizer state is threaded in and out. -/
noncomputable def Memristor.pulse (law : DeviceLaw) (conv : VoltageConverter)
    (m : Memristor) (signal : ℚ) : Except String (ℝ × Memristor × VoltageConverter) :=
  let V : ℝ := ((qsign signal : ℚ) : ℝ) * m.base_voltage
  let sc := if signal ≠ 0 then conv.call signal else (0, conv)
  (pulseSteps law V sc.1 m).map fun m' => (m'.condVal true m.gain, m', sc.2)

/-- `Memristor.__init__`: the initial resistance is
`random.seed(seed); random.uniform(1e8, 1.1e8)`.  For a non-`None` seed the
global generator is reseeded deterministically, so the draw is a pure
function of the seed; that function is the abstract parameter `urand`.
`r_0`, `r_1` are the bounds installed by the concrete subclass constructor. -/
noncomputable def mkMemristor (urand : ℕ → ℝ) (seed : ℕ) (base_voltage gain r0 r1 : ℝ) :
    Memristor :=
  { r_curr := urand seed, r_0 := r0, r_1 := r1, history := [],
    base_voltage := base_voltage, gain := gain }

/-- `OnedirectionalPowerlawMemristor`: `compute_pulse_number` returns
`((R - r_0)/r_1)**(1/a)` for `V >= 0` and falls through (Python `None`)
otherwise; `compute_resistance` returns `r_0 + r_1 * n**a` for `V > 0` and the
current resistance otherwise. -/
noncomputable def onedirectionalLaw (a : ℝ) : DeviceLaw where
  compute_pulse_number m R V :=
    if 0 ≤ V then some (((R - m.r_0) / m.r_1) ^ (1 / a)) else none
  compute_resistance m n V :=
    if 0 < V then m.r_0 + m.r_1 * n ^ a else m.r_curr

/-- `MemristorAnouk` (unidirectional empirical law): exponent `a + b*V` in
both directions, no branching on the sign of `V`. -/
noncomputable def anoukLaw (a b : ℝ) : DeviceLaw where
  compute_pulse_number m R V := some (((R - m.r_0) / m.r_1) ^ (1 / (a + b * V)))
  compute_resistance m n V := m.r_0 + m.r_1 * n ^ (a + b * V)

/-- `MemristorAnoukBidirectional`: positive branch as `MemristorAnouk` with
exponent `a + b*V`; negative branch anchored at `r3 = 1e9` with exponent
`c + d*(-V)`; `V = 0` leaves the resistance unchanged in
`compute_resistance`. -/
noncomputable def anoukBidirectionalLaw (a b c d : ℝ) : DeviceLaw where
  compute_pulse_number m R V :=
    if 0 ≤ V then some (((R - m.r_0) / m.r_1) ^ (1 / (a + b * V)))
    else some ((((1000000000 : ℝ) - R) / 1000000000) ^ (1 / (c + d * (-V))))
  compute_resistance m n V :=
    if 0 < V then m.r_0 + m.r_1 * n ^ (a + b * V)
    else if V < 0 then (1000000000 : ℝ) - 1000000000 * n ^ (c + d * (-V))
    else m.r_curr

/-! ### Differential pair (`MemristorModels.py`, classes `MemristorPair`,
`MemristorPlusMinus`, `MemristorComplementary`) -/

/-- State of a `MemristorPair`: the excitatory device `mem_one` and the
inhibitory device `mem_two`. -/
structure MemristorPair where
  mem_one : Memristor
  mem_two : Memristor

/-- `MemristorPair.__init__` (shared by both policies): both member devices
are constructed from the same `model` with the same `seed`,
`voltage_converter`, `base_voltage` and `gain`. -/
noncomputable def mkMemristorPair (urand : ℕ → ℝ) (seed : ℕ)
    (base_voltage gain r0 r1 : ℝ) : MemristorPair :=
  { mem_one := mkMemristor urand seed base_voltage gain r0 r1,
    mem_two := mkMemristor urand seed base_voltage gain r0 r1 }

/-- `MemristorPair.get_state(value, scaled, gain)`:
`mem_one.get_state(...) - mem_two.get_state(...)`.  (Note the pair's default
gain is `10**4`, unlike the single device's `1e5`.) -/
noncomputable def MemristorPair.get_state (p : MemristorPair) (value : String)
    (scaled : Bool) (gain : ℝ) : Except String ℝ := do
  let x ← p.mem_one.get_state value scaled gain
  let y ← p.mem_two.get_state value scaled gain
  pure (x - y)

/-- `MemristorPlusMinus.pulse(signal)`: a positive signal pulses only
`mem_one`, a negative signal pulses only `mem_two` with `-signal`, a zero
signal pulses neither; the return value is
`mem_one.get_state() - mem_two.get_state()` evaluated on the post-pulse
devices with `Memristor.get_state`'s own defaults (gain `1e5`). -/
noncomputable def MemristorPlusMinus.pulse (law : DeviceLaw) (conv : VoltageConverter)
    (p : MemristorPair) (signal : ℚ) :
    Except String (ℝ × MemristorPair × VoltageConverter) :=
  if 0 < signal then
    (p.mem_one.pulse law conv signal).map fun r =>
      (r.2.1.condVal true 100000 - p.mem_two.condVal true 100000,
       ⟨r.2.1, p.mem_two⟩, r.2.2)
  else if signal < 0 then
    (p.mem_two.pulse law conv (-signal)).map fun r =>
      (p.mem_one.condVal true 100000 - r.2.1.condVal true 100000,
       ⟨p.mem_one, r.2.1⟩, r.2.2)
  else
    .ok (p.mem_one.condVal true 100000 - p.mem_two.condVal true 100000, p, conv)

/-- `MemristorComplementary.pulse(signal)`: every nonzero signal pulses both
devices, with opposite signs. -/
noncomputable def MemristorComplementary.pulse (law : DeviceLaw) (conv : VoltageConverter)
    (p : MemristorPair) (signal : ℚ) :
    Except String (ℝ × MemristorPair × VoltageConverter) :=
  if 0 < signal then do
    let r1 ← p.mem_one.pulse law conv signal
    let r2 ← p.mem_two.pulse law r1.2.2 (-signal)
    pure (r1.2.1.condVal true 100000 - r2.2.1.condVal true 100000, ⟨r1.2.1, r2.2.1⟩, r2.2.2)
  else if signal < 0 then do
    let r1 ← p.mem_one.pulse law conv (-signal)
    let r2 ← p.mem_two.pulse law r1.2.2 signal
    pure (r1.2.1.condVal true 100000 - r2.2.1.condVal true 100000, ⟨r1.2.1, r2.2.1⟩, r2.2.2)
  else
    .ok (p.mem_one.condVal true 100000 - p.mem_two.condVal true 100000, p, conv)

/-! ### Array controller (`MemristorControllers.py`, classes
`MemristorController` and `MemristorArray`) -/

/-- Interface of one array element, instantiated below by the single device
and by the plus-minus pair.  `getState` is the element's `get_state()` at the
call's own defaults (the value stored into `weights`); `getStateRaw` is
`get_state(value="conductance", scaled=False, gain=1)` as used by the
conductance logging; `res` lists the member devices' resistances.  The two
proof fields record that `save_state` only appends to histories and does not
move resistances or conductances — true of both instantiations by
construction. -/
structure ElementModel where
  S : Type
  init : ℕ → S
  pulse : VoltageConverter → S → ℚ → Except String (ℝ × S × VoltageConverter)
  getState : S → ℝ
  getStateRaw : S → ℝ
  save_state : S → S
  res : S → List ℝ
  res_save_state : ∀ s, res (save_state s) = res s
  getState_save_state : ∀ s, getState (save_state s) = getState s
  getStateRaw_save_state : ∀ s, getStateRaw (save_state s) = getStateRaw s

/-- A single `Memristor` of the given law as array element. -/
noncomputable def singleElement (law : DeviceLaw) (urand : ℕ → ℝ)
    (base_voltage gain r0 r1 : ℝ) : ElementModel where
  S := Memristor
  init seed := mkMemristor urand seed base_voltage gain r0 r1
  pulse conv s signal := s.pulse law conv signal
  getState s := s.condVal true 100000
  getStateRaw s := s.condVal false 1
  save_state s := s.save_state
  res s := [s.r_curr]
  res_save_state _ := rfl
  getState_save_state _ := rfl
  getStateRaw_save_state _ := rfl

/-- A `MemristorPlusMinus` pair of the given law as array element.  Its
`get_state()` default gain is `10**4`; the conductance logging passes
`scaled=False, gain=1` through to both members. -/
noncomputable def pairElement (law : DeviceLaw) (urand : ℕ → ℝ)
    (base_voltage gain r0 r1 : ℝ) : ElementModel where
  S := MemristorPair
  init seed := mkMemristorPair urand seed base_voltage gain r0 r1
  pulse conv s signal := MemristorPlusMinus.pulse law conv s signal
  getState s := s.mem_one.condVal true 10000 - s.mem_two.condVal true 10000
  getStateRaw s := s.mem_one.condVal false 1 - s.mem_two.condVal false 1
  save_state s := ⟨s.mem_one.save_state, s.mem_two.save_state⟩
  res s := [s.mem_one.r_curr, s.mem_two.r_curr]
  res_save_state _ := rfl
  getState_save_state _ := rfl
  getStateRaw_save_state _ := rfl

/-- Modelled from the spec: the `LearningRule` collaborator
(`MemristorLearningRules.py` is not among the sources).  Per the spec it
exposes the two capability flags, computes per-element drive signals, is
responsible for an output-sized result vector, and optionally yields an error
signal (`get_error_signal` may be absent/failing, modelled by `none`). -/
structure LearningRule (m n : ℕ) where
  has_learning_signal : Bool
  has_error_signal : Bool
  drive : ℝ → List ℝ → Fin m → Fin n → ℚ
  output : ℝ → List ℝ → List ℝ
  errSig : Option ℝ

/-- State of a `MemristorArray` controller: the `output_size × input_size`
weight matrix, the device matrix of the same shape, the shared quantizer, and
the three history buffers (matrix snapshots are stored as lists of rows, as
`np.copy` snapshots decouple them from the live matrix). -/
structure MemristorArray (E : ElementModel) (m n : ℕ) where
  weights : Fin m → Fin n → ℝ
  memristors : Fin m → Fin n → E.S
  conv : VoltageConverter
  weight_history : List (List (List ℝ))
  error_history : List ℝ
  conductance_history : List (List (List ℝ))

/-- Row-major snapshot of an `m × n` matrix. -/
def matSnap {m n : ℕ} (W : Fin m → Fin n → ℝ) : List (List ℝ) :=
  (List.finRange m).map fun j => (List.finRange n).map fun i => W j i

/-- Model of `np.dot(W, v)` for a 2-D `W` and 1-D `v`: defined when
`len(v) = n`, a `ValueError` otherwise. -/
noncomputable def matVec {m n : ℕ} (W : Fin m → Fin n → ℝ) (v : List ℝ) :
    Except String (List ℝ) :=
  if v.length = n then
    .ok ((List.finRange m).map fun j => ∑ i : Fin n, W j i * v.getD i 0)
  else .error "ValueError"

/-- `MemristorArray.__init__` (`logging` is left at the base-class default
`True` and therefore not carried in the state): `weights[i,j]` is initialised
from `memristors[i,j].get_state()`; every element is constructed with the same
seed and shares one quantizer instance. -/
noncomputable def mkMemristorArray (E : ElementModel) (m n : ℕ) (conv : VoltageConverter)
    (seed : ℕ) : MemristorArray E m n :=
  { weights := fun _ _ => E.getState (E.init seed),
    memristors := fun _ _ => E.init seed,
    conv := conv,
    weight_history := [], error_history := [], conductance_history := [] }

/-- The logging block at the end of `MemristorArray.__call__`: append the
error signal when the rule yields one (its absence is swallowed by
`try/except`), append a copy of `weights`, `save_state` every device, then
fill a conductance matrix through the loop
`conductances[j,i] = memristors[j,i].get_state("conductance", scaled=False, gain=1)`
with `i` ranging over `output_size` and `j` over `input_size`.  For a square
array that loop is exactly the element-wise snapshot; for `m ≠ n` one of the
two indices leaves its bound and numpy raises `IndexError`. -/
noncomputable def logStep {m n : ℕ} (E : ElementModel) (rule : LearningRule m n)
    (st : MemristorArray E m n) : Except String (MemristorArray E m n) :=
  let mems' := fun j i => E.save_state (st.memristors j i)
  if m = n then
    .ok { st with
      error_history := st.error_history ++ (rule.errSig.map fun e => [e]).getD [],
      weight_history := st.weight_history ++ [matSnap st.weights],
      memristors := mems',
      conductance_history :=
        st.conductance_history ++ [matSnap fun j i => E.getStateRaw (mems' j i)] }
  else .error "IndexError"

/-- Modelled from the spec: the per-element body of the learning pass —
pulse `devices[j,i]` with its drive signal and synchronously store the
element's fresh `get_state()` into `weights[j,i]`, threading the shared
quantizer. -/
noncomputable def learnCell {m n : ℕ} (E : ElementModel) (rule : LearningRule m n)
    (t : ℝ) (acts : List ℝ)
    (acc : (Fin m → Fin n → ℝ) × (Fin m → Fin n → E.S) × VoltageConverter)
    (ji : Fin m × Fin n) :
    Except String ((Fin m → Fin n → ℝ) × (Fin m → Fin n → E.S) × VoltageConverter) := do
  let r ← E.pulse acc.2.2 (acc.2.1 ji.1 ji.2) (rule.drive t acts ji.1 ji.2)
  pure (fun j' i' => if j' = ji.1 ∧ i' = ji.2 then E.getState r.2.1 else acc.1 j' i',
        fun j' i' => if j' = ji.1 ∧ i' = ji.2 then r.2.1 else acc.2.1 j' i',
        r.2.2)

/-- Modelled from the spec: one learning-phase invocation of the external
rule.  The rule walks the array applying `learnCell` to every element — per
the spec's post-condition that `weights` is mutated in lock-step with device
pulses — and finally produces its output vector. -/
noncomputable def learnStep {m n : ℕ} (E : ElementModel) (rule : LearningRule m n)
    (st : MemristorArray E m n) (t : ℝ) (acts : List ℝ) :
    Except String (List ℝ × MemristorArray E m n) := do
  let cells := (List.finRange m).flatMap fun j => (List.finRange n).map fun i => (j, i)
  let acc ← cells.foldlM (learnCell E rule t acts) (st.weights, st.memristors, st.conv)
  pure (rule.output t acts,
        { st with weights := acc.1, memristors := acc.2.1, conv := acc.2.2 })

/-- `MemristorArray.__call__(t, x)`.  With a learning-flagged rule, `x[-1]`
(raising `IndexError` on an empty vector) is rounded with `np.rint`: nonzero
selects the learning path (the rule, modelled by `learnStep`), zero selects
the inference path `np.dot(weights, input_activities)` — with the activities
truncated to `input_size` when the rule also carries an error signal.
Without the flag every call goes through the rule.  Logging runs after either
path, and the pre-logging result is returned. -/
noncomputable def MemristorArray.call {m n : ℕ} (E : ElementModel) (rule : LearningRule m n)
    (st : MemristorArray E m n) (t : ℝ) (x : List ℝ) :
    Except String (List ℝ × MemristorArray E m n) :=
  (if rule.has_learning_signal then
      match x.getLast? with
      | none => .error "IndexError"
      | some lastx =>
        if rint lastx ≠ 0 then learnStep E rule st t x.dropLast
        else (matVec st.weights
            (if rule.has_error_signal then x.dropLast.take n else x.dropLast)).map
          fun r => (r, st)
    else learnStep E rule st t x) >>= fun rst =>
  (logStep E rule rst.2).map fun st₂ => (rst.1, st₂)

/-- The synchronisation invariant of the controller: every weight equals the
live element read-out `get_state()` of the device (or pair) at the same
index. -/
def WeightsSync {m n : ℕ} (E : ElementModel) (st : MemristorArray E m n) : Prop :=
  ∀ j i, st.weights j i = E.getState (st.memristors j i)

/-- Snapshot of the member-device resistances of every element. -/
def resSnap {m n : ℕ} (E : ElementModel) (st : MemristorArray E m n) :
    List (List (List ℝ)) :=
  (List.finRange m).map fun j => (List.finRange n).map fun i => E.res (st.memristors j i)

/-- The history buffers a `get_history` selector can address; `weight` and
`conductance` hold matrix snapshots, `error` holds scalars. -/
inductive HistoryValue
  | mats (h : List (List (List ℝ)))
  | errs (h : List ℝ)

/-- `MemristorController.get_history(select)`: three `if` tests with no final
`else`, so an unmatched selector falls off the end of the function and Python
returns the value `None` — modelled as `Except.ok none`, a normal return, in
contrast with the raise modelled by `Except.error` in `get_state`. -/
def MemristorArray.get_history {E : ElementModel} {m n : ℕ} (st : MemristorArray E m n)
    (select : String) : Except String (Option HistoryValue) :=
  if select = "weight" then .ok (some (.mats st.weight_history))
  else if select = "error" then .ok (some (.errs st.error_history))
  else if select = "conductance" then .ok (some (.mats st.conductance_history))
  else .ok none

/-- A concrete device state used to exercise the selector paths. -/
noncomputable def devW : Memristor :=
  { r_curr := 3, r_0 := 1, r_1 := 2, history := [], base_voltage := 1, gain := 1 }

/-- A concrete 1×1 controller used to exercise the selector paths. -/
noncomputable def arrW : MemristorArray (singleElement (anoukLaw 1 0) (fun _ => 3) 1 1 1 2) 1 1 :=
  mkMemristorArray (singleElement (anoukLaw 1 0) (fun _ => 3) 1 1 1 2) 1 1 (.base 1) 0

/-- A one-directional power-law device with the controller's default
`base_voltage = 1e-1` and an arbitrary in-range state. -/
noncomputable def onedirDevW : Memristor :=
  { r_curr := 5, r_0 := 1, r_1 := 2, history := [], base_voltage := 1/10,
    gain := 100000 }

/-- A concrete pair used to witness C4. -/
noncomputable def pairW : MemristorPair :=
  { mem_one := { r_curr := 3, r_0 := 1, r_1 := 2, history := [], base_voltage := 1,
                 gain := 100000 },
    mem_two := { r_curr := 4, r_0 := 1, r_1 := 2, history := [], base_voltage := 1,
                 gain := 100000 } }

/-- The resistance trajectory of a device under a sequence of `pulse` calls:
the value of `r_curr` after each successive call, threading the shared
quantizer (truncated if a call raises). -/
noncomputable def pulseTraj (law : DeviceLaw) :
    VoltageConverter → Memristor → List ℚ → List ℝ
  | _, _, [] => []
  | conv, m, s :: rest =>
    match m.pulse law conv s with
    | .ok r => r.2.1.r_curr :: pulseTraj law r.2.2 r.2.1 rest
    | .error _ => []

/-- A `MemristorAnouk` device state at the class defaults
(`r0=100`, `r1=2.5e8`) with the controller's default `base_voltage = 1e-1`
and an initial resistance from the construction range `[1e8, 1.1e8]`. -/
noncomputable def anoukDevW : Memristor :=
  { r_curr := 100000000, r_0 := 100, r_1 := 250000000, history := [],
    base_voltage := 1/10, gain := 100000 }

/-- A concrete single-device element model used by the controller
witnesses. -/
noncomputable def elemW : ElementModel := singleElement (anoukLaw 1 0) (fun _ => 3) 1 1 1 2

/-- A concrete learning rule shape: learning flag consumed, no error
signal. -/
noncomputable def ruleW : LearningRule 2 2 :=
  { has_learning_signal := true, has_error_signal := false,
    drive := fun _ _ _ _ => 0, output := fun _ _ => [], errSig := none }

/-- A concrete 2×2 controller state with weights `[[1,2],[3,4]]`. -/
noncomputable def stW : MemristorArray elemW 2 2 :=
  { weights := fun j i =>
      if j = 0 then (if i = 0 then 1 else 2) else (if i = 0 then 3 else 4),
    memristors := fun _ _ => devW,
    conv := .base 1,
    weight_history := [], error_history := [], conductance_history := [] }

/-! ### Theorems -/

/-! Helper lemmas about `Except`. -/

theorem exceptBind_ok {α β : Type} {a : α} {f : α → Except String β} :
    ((Except.ok a : Except String α) >>= f) = f a := rfl

theorem exceptBind_error {α β : Type} {s : String} {f : α → Except String β} :
    ((Except.error s : Except String α) >>= f) = .error s := rfl

theorem exceptBind_eq_ok {α β : Type} {e : Except String α} {f : α → Except String β}
    {b : β} (h : (e >>= f) = .ok b) : ∃ a, e = .ok a ∧ f a = .ok b := by
  cases e with
  | ok a => exact ⟨a, rfl, h⟩
  | error s => exact absurd h (by simp [exceptBind_error])

theorem exceptMap_eq_ok {α β : Type} {e : Except String α} {f : α → β}
    {b : β} (h : e.map f = .ok b) : ∃ a, e = .ok a ∧ f a = b := by
  cases e with
  | ok a =>
    refine ⟨a, rfl, ?_⟩
    simpa [Except.map] using h
  | error s => exact absurd h (by simp [Except.map])

/-! Device theorems (claims C7 and C9). -/

/-- Claim C7: for every device (any law, any quantizer state), `pulse(0)`
performs zero update steps — the quantizer is not consulted, `r_curr` and the
history are unchanged — and still returns the current scaled state
`get_state(gain=self.gain)`; it is a normal return, not an error. -/
theorem C7_zero_signal_pulse_noop (law : DeviceLaw) (conv : VoltageConverter)
    (m : Memristor) :
    m.pulse law conv 0 = .ok (m.condVal true m.gain, m, conv) := by
  simp [Memristor.pulse, pulseSteps, Except.map]

/-- Claim C9: a `MemristorPair` (the `__init__` shared by both policies)
built from any deterministic seed draw gives both member devices identical
initial resistance, and `get_state()` (its defaults: conductance, scaled,
gain `10**4`) returns exactly 0 immediately after construction. -/
theorem C9_pair_initial_weight_zero (urand : ℕ → ℝ) (seed : ℕ)
    (base_voltage gain r0 r1 : ℝ) :
    (mkMemristorPair urand seed base_voltage gain r0 r1).mem_one.r_curr =
        (mkMemristorPair urand seed base_voltage gain r0 r1).mem_two.r_curr
    ∧ (mkMemristorPair urand seed base_voltage gain r0 r1).get_state
        "conductance" true 10000 = .ok 0 := by
  constructor
  · rfl
  · simp [MemristorPair.get_state, Memristor.get_state, mkMemristorPair,
      exceptBind_ok, sub_self]

/-! Quantizer lemmas. -/

theorem linspace_length (a b : ℚ) (k : ℕ) : (linspace a b k).length = k := by
  unfold linspace
  split
  · simp_all
  · split
    · simp_all
    · simp

theorem linspace_sorted {a b : ℚ} (hab : a ≤ b) (k : ℕ) :
    (linspace a b k).Pairwise (· ≤ ·) := by
  unfold linspace
  split
  · simp
  · split
    · simp
    · rename_i hk0 hk1
      rw [List.pairwise_map]
      have hk2 : 2 ≤ k := by omega
      have hden : (0 : ℚ) < (k : ℚ) - 1 := by
        have : (2 : ℚ) ≤ (k : ℚ) := by exact_mod_cast hk2
        linarith
      refine (List.pairwise_lt_range k).imp ?_
      intro i j hij
      have hstep : (0 : ℚ) ≤ (b - a) / ((k : ℚ) - 1) :=
        div_nonneg (by linarith) hden.le
      have hij' : (i : ℚ) ≤ (j : ℚ) := by exact_mod_cast Nat.le_of_lt hij
      have := mul_le_mul_of_nonneg_right hij' hstep
      calc a + (i : ℚ) * (b - a) / ((k : ℚ) - 1)
          = a + (i : ℚ) * ((b - a) / ((k : ℚ) - 1)) := by ring
        _ ≤ a + (j : ℚ) * ((b - a) / ((k : ℚ) - 1)) := by linarith
        _ = a + (j : ℚ) * (b - a) / ((k : ℚ) - 1) := by ring

theorem linspace_mem_le {a b : ℚ} (hab : a ≤ b) (k : ℕ) :
    ∀ x ∈ linspace a b k, x ≤ b := by
  unfold linspace
  split
  · simp
  · split
    · simpa using hab
    · rename_i hk0 hk1
      intro x hx
      obtain ⟨i, hi, rfl⟩ := List.mem_map.1 hx
      rw [List.mem_range] at hi
      have hk2 : 2 ≤ k := by omega
      have hden : (0 : ℚ) < (k : ℚ) - 1 := by
        have : (2 : ℚ) ≤ (k : ℚ) := by exact_mod_cast hk2
        linarith
      have hstep : (0 : ℚ) ≤ (b - a) / ((k : ℚ) - 1) :=
        div_nonneg (by linarith) hden.le
      have hi' : (i : ℚ) ≤ (k : ℚ) - 1 := by
        have : (i : ℚ) + 1 ≤ (k : ℚ) := by exact_mod_cast hi
        linarith
      have h1 : (i : ℚ) * ((b - a) / ((k : ℚ) - 1)) ≤
          ((k : ℚ) - 1) * ((b - a) / ((k : ℚ) - 1)) :=
        mul_le_mul_of_nonneg_right hi' hstep
      have h2 : ((k : ℚ) - 1) * ((b - a) / ((k : ℚ) - 1)) = b - a := by
        field_simp
      calc a + (i : ℚ) * (b - a) / ((k : ℚ) - 1)
          = a + (i : ℚ) * ((b - a) / ((k : ℚ) - 1)) := by ring
        _ ≤ a + (b - a) := by rw [h2] at h1; linarith
        _ = b := by ring

/-- For a sorted list, the right insertion index is the number of elements
`≤ v`. -/
theorem searchsortedRight_eq_countP (v : ℚ) :
    ∀ (l : List ℚ), l.Pairwise (· ≤ ·) →
      searchsortedRight l v = l.countP (fun x => decide (x ≤ v))
  | [], _ => rfl
  | x :: xs, h => by
    rw [List.pairwise_cons] at h
    by_cases hvx : v < x
    · have : ∀ y ∈ xs, ¬ (y ≤ v) := fun y hy hyv =>
        absurd ((h.1 y hy).trans hyv) (not_le_of_lt hvx)
      have hcount : xs.countP (fun x => decide (x ≤ v)) = 0 := by
        rw [List.countP_eq_zero]
        intro y hy
        simpa using this y hy
      simp [searchsortedRight, hvx, List.countP_cons, hcount,
        not_le_of_lt hvx]
    · rw [not_lt] at hvx
      simp [searchsortedRight, not_lt.2 hvx, List.countP_cons, hvx,
        searchsortedRight_eq_countP v xs h.2, Nat.add_comm]

/-! ### Quantizer theorems (claims C6 and C10) -/

theorem linspace_head? (a b : ℚ) (k : ℕ) (hk : 1 ≤ k) :
    (linspace a b k).head? = some a := by
  unfold linspace
  split
  · omega
  · split
    · rfl
    · rename_i hk0 hk1
      obtain ⟨k', rfl⟩ : ∃ k', k = k' + 1 := ⟨k - 1, by omega⟩
      rw [List.range_succ_eq_map]
      simp

theorem searchsortedRight_pos {l : List ℚ} {v a : ℚ} (hhead : l.head? = some a)
    (ha : a ≤ v) : 1 ≤ searchsortedRight l v := by
  cases l with
  | nil => simp at hhead
  | cons x xs =>
    simp only [List.head?_cons, Option.some.injEq] at hhead
    subst hhead
    simp [searchsortedRight, not_lt.2 ha]

/-- Claim C6: for the adaptive levels quantizer, `convert` returns the 1-based
rank of the signal within the partition of the running observed range into
`levels` equal steps — the number of partition points `≤ signal`, which lies
in `[1, levels]` — and saturates at `levels` whenever the signal equals the
updated running maximum.  (The instance "a fresh 10-level instance fed the
single signal 5 returns `levels`" is the witness below.) -/
theorem C6_adaptive_levels_rank (lv : ℕ) (sm lg signal : ℚ)
    (hlv : 1 ≤ lv) (hrange : sm ≤ lg) :
    ((VoltageConverter.levels lv sm lg).call signal).1 =
        (linspace (if signal < sm then signal else sm)
          (if lg < signal then signal else lg) lv).countP (fun x => decide (x ≤ signal))
      ∧ 1 ≤ ((VoltageConverter.levels lv sm lg).call signal).1
      ∧ ((VoltageConverter.levels lv sm lg).call signal).1 ≤ lv
      ∧ (lg ≤ signal → ((VoltageConverter.levels lv sm lg).call signal).1 = lv) := by
  set sm' := if signal < sm then signal else sm with hsm'
  set lg' := if lg < signal then signal else lg with hlg'
  have hsm'le : sm' ≤ signal := by
    rw [hsm']; split
    · exact le_refl signal
    · next h => exact not_lt.1 h
  have hsiglg' : signal ≤ lg' := by
    rw [hlg']; split
    · exact le_refl signal
    · next h => exact not_lt.1 h
  have hmm : sm' ≤ lg' := hsm'le.trans hsiglg'
  have hcall : (VoltageConverter.levels lv sm lg).call signal =
      (searchsortedRight (linspace sm' lg' lv) signal, .levels lv sm' lg') := by
    simp only [VoltageConverter.call, hsm', hlg']
  have heq : searchsortedRight (linspace sm' lg' lv) signal =
      (linspace sm' lg' lv).countP (fun x => decide (x ≤ signal)) :=
    searchsortedRight_eq_countP signal _ (linspace_sorted hmm lv)
  refine ⟨by rw [hcall, heq], ?_, ?_, ?_⟩
  · rw [hcall]
    exact searchsortedRight_pos (linspace_head? sm' lg' lv hlv) hsm'le
  · rw [hcall]
    calc searchsortedRight (linspace sm' lg' lv) signal
        = (linspace sm' lg' lv).countP (fun x => decide (x ≤ signal)) := heq
      _ ≤ (linspace sm' lg' lv).length := List.countP_le_length _
      _ = lv := linspace_length sm' lg' lv
  · intro hsat
    have hlg'eq : lg' = signal := by
      rw [hlg']; split
      · rfl
      · next h => exact le_antisymm hsat (not_lt.1 h)
    rw [hcall, heq]
    have hall : ∀ x ∈ linspace sm' lg' lv, decide (x ≤ signal) = true := by
      intro x hx
      have := linspace_mem_le hmm lv x hx
      simp [this.trans (le_of_eq hlg'eq)]
    rw [List.countP_eq_length.2 hall, linspace_length]

/-- Witness for C6: feeding the single signal 5 into a fresh 10-level
instance returns rank `levels = 10`. -/
theorem C6_adaptive_levels_rank_witness :
    (1 ≤ 10 ∧ (0 : ℚ) ≤ 0) ∧ ((freshLevels 10).call 5).1 = 10 := by
  refine ⟨⟨by decide, le_refl 0⟩, ?_⟩
  exact (C6_adaptive_levels_rank 10 0 0 5 (by decide) (le_refl 0)).2.2.2 (by decide)

/-- Claim C10: on a freshly constructed `LevelsVoltageConverter` (running
minimum and maximum both 0), `convert(0)` returns `levels` — the degenerate
all-equal partition together with the right-inclusive search assigns the top
bin — and in particular for the default 10-level instance the result is 10,
not 0. -/
theorem C10_fresh_zero_signal_saturates :
    (∀ lv, 1 ≤ lv → ((freshLevels lv).call 0).1 = lv) ∧
      ((freshLevels 10).call 0).1 = 10 ∧ ((freshLevels 10).call 0).1 ≠ 0 := by
  have h : ∀ lv, 1 ≤ lv → ((freshLevels lv).call 0).1 = lv := by
    intro lv hlv
    exact (C6_adaptive_levels_rank lv 0 0 0 hlv (le_refl 0)).2.2.2 (le_refl 0)
  exact ⟨h, h 10 (by decide), by rw [h 10 (by decide)]; decide⟩

/-! ### Selector error handling (claim C8) -/

/-- Counterexample to claim C8 as stated: `get_history` with the unknown
selector `"volts"` is not fatal — the Python method falls off its end and
silently returns the default value `None` (modelled `Except.ok none`),
instead of failing at the call site. -/
theorem C8_counterexample_get_history_silent_none :
    arrW.get_history "volts" = .ok none := rfl

/-- Claim C8 (amended): an unknown `get_state` selector is fatal at the call
site (`ret_val` is never bound, so the final `return` raises
`UnboundLocalError`), but an unknown `get_history` selector is NOT fatal: the
method silently returns the default value `None`. -/
theorem C8_unknown_selector_behaviour {E : ElementModel} {mo no : ℕ}
    (m : Memristor) (st : MemristorArray E mo no)
    (value select : String) (scaled : Bool) (gain : ℝ)
    (hv1 : value ≠ "conductance") (hv2 : value ≠ "resistance")
    (hs1 : select ≠ "weight") (hs2 : select ≠ "error") (hs3 : select ≠ "conductance") :
    m.get_state value scaled gain = .error "UnboundLocalError"
    ∧ st.get_history select = .ok none := by
  constructor
  · simp [Memristor.get_state, hv1, hv2]
  · simp [MemristorArray.get_history, hs1, hs2, hs3]

/-- Witness for the amended C8 at the concrete unknown selector `"volts"`
(for `get_state`) and `"volts"` (for `get_history`). -/
theorem C8_unknown_selector_behaviour_witness :
    ("volts" ≠ "conductance" ∧ "volts" ≠ "weight") ∧
    devW.get_state "volts" true 1 = .error "UnboundLocalError" ∧
    arrW.get_history "volts" = .ok none := by
  refine ⟨⟨by decide, by decide⟩, ?_⟩
  exact C8_unknown_selector_behaviour devW arrW "volts" "volts" true 1
    (by decide) (by decide) (by decide) (by decide) (by decide)

/-- Claim C5 (code-bug evidence): for the one-directional power-law device a
zero-signal pulse is indeed a state-preserving no-op, but a pulse driven by a
strictly negative signal is NOT: `compute_pulse_number` falls through
(Python `None`) for `V < 0`, so the update loop evaluates `None + 1` and
raises `TypeError` — even though `compute_resistance`'s own `V ≤ 0` branch
(returning `r_curr` unchanged) shows the intended no-op that the spec
describes. -/
theorem C5_onedirectional_negative_pulse_raises :
    onedirDevW.pulse (onedirectionalLaw 2) (.base 1) (-1) = .error "TypeError"
    ∧ onedirDevW.pulse (onedirectionalLaw 2) (.base 1) 0 =
        .ok (onedirDevW.condVal true onedirDevW.gain, onedirDevW, .base 1) := by
  constructor
  · have hq : qsign (-1) = -1 := by norm_num [qsign]
    have hV : ¬ (0 : ℝ) ≤ ((qsign (-1) : ℚ) : ℝ) * onedirDevW.base_voltage := by
      rw [hq]
      push_cast
      norm_num [onedirDevW]
    simp only [Memristor.pulse, VoltageConverter.call]
    norm_num [pulseSteps, onedirectionalLaw, hV, Except.map]
  · simp [Memristor.pulse, pulseSteps, Except.map]

/-- Claim C4: the `MemristorPlusMinus` pulsing policy.  A strictly positive
signal leaves the inhibitory device `mem_two` untouched and pulses exactly
the excitatory device `mem_one` (same signal, same threaded quantizer); a
strictly negative signal leaves `mem_one` untouched and pulses exactly
`mem_two` with the sign-flipped magnitude `-signal`; a zero signal pulses
neither device and returns the current difference. -/
theorem C4_plus_minus_policy (law : DeviceLaw) (conv : VoltageConverter)
    (p : MemristorPair) (signal : ℚ) :
    (0 < signal →
      (MemristorPlusMinus.pulse law conv p signal).map (fun r => r.2.1.mem_two)
        = (p.mem_one.pulse law conv signal).map (fun _ => p.mem_two)
      ∧ (MemristorPlusMinus.pulse law conv p signal).map (fun r => (r.2.1.mem_one, r.2.2))
        = (p.mem_one.pulse law conv signal).map (fun r => (r.2.1, r.2.2)))
    ∧ (signal < 0 →
      (MemristorPlusMinus.pulse law conv p signal).map (fun r => r.2.1.mem_one)
        = (p.mem_two.pulse law conv (-signal)).map (fun _ => p.mem_one)
      ∧ (MemristorPlusMinus.pulse law conv p signal).map (fun r => (r.2.1.mem_two, r.2.2))
        = (p.mem_two.pulse law conv (-signal)).map (fun r => (r.2.1, r.2.2)))
    ∧ (signal = 0 →
      MemristorPlusMinus.pulse law conv p signal
        = .ok (p.mem_one.condVal true 100000 - p.mem_two.condVal true 100000, p, conv)) := by
  refine ⟨fun h => ?_, fun h => ?_, fun h => ?_⟩
  · rw [MemristorPlusMinus.pulse, if_pos h]
    cases p.mem_one.pulse law conv signal <;> simp [Except.map]
  · rw [MemristorPlusMinus.pulse, if_neg (by exact not_lt.2 h.le), if_pos h]
    cases p.mem_two.pulse law conv (-signal) <;> simp [Except.map]
  · subst h
    rw [MemristorPlusMinus.pulse, if_neg (lt_irrefl 0), if_neg (lt_irrefl 0)]

/-- Witness for C4 at the three concrete signals 1, -1 and 0. -/
theorem C4_plus_minus_policy_witness :
    ((0 : ℚ) < 1 ∧ (-1 : ℚ) < 0) ∧
    (MemristorPlusMinus.pulse (anoukLaw 1 0) (.base 1) pairW 1).map (fun r => r.2.1.mem_two)
      = (pairW.mem_one.pulse (anoukLaw 1 0) (.base 1) 1).map (fun _ => pairW.mem_two) ∧
    (MemristorPlusMinus.pulse (anoukLaw 1 0) (.base 1) pairW (-1)).map (fun r => r.2.1.mem_one)
      = (pairW.mem_two.pulse (anoukLaw 1 0) (.base 1) (-(-1))).map (fun _ => pairW.mem_one) ∧
    MemristorPlusMinus.pulse (anoukLaw 1 0) (.base 1) pairW 0
      = .ok (pairW.mem_one.condVal true 100000 - pairW.mem_two.condVal true 100000,
             pairW, .base 1) := by
  refine ⟨⟨by decide, by decide⟩, ?_, ?_, ?_⟩
  · exact (C4_plus_minus_policy (anoukLaw 1 0) (.base 1) pairW 1).1 (by decide) |>.1
  · exact (C4_plus_minus_policy (anoukLaw 1 0) (.base 1) pairW (-1)).2.1 (by decide) |>.1
  · exact (C4_plus_minus_policy (anoukLaw 1 0) (.base 1) pairW 0).2.2 rfl

/-! ### Controller theorems (claims C1 and C2) -/

theorem logStep_ok_sync {m n : ℕ} {E : ElementModel} {rule : LearningRule m n}
    {st st' : MemristorArray E m n} (h : logStep E rule st = .ok st')
    (hs : WeightsSync E st) : WeightsSync E st' := by
  unfold logStep at h
  split at h
  · cases h
    intro j i
    show st.weights j i = E.getState (E.save_state (st.memristors j i))
    rw [E.getState_save_state]
    exact hs j i
  · cases h

theorem learnCell_ok_sync {m n : ℕ} {E : ElementModel} {rule : LearningRule m n}
    {t : ℝ} {acts : List ℝ}
    {acc acc' : (Fin m → Fin n → ℝ) × (Fin m → Fin n → E.S) × VoltageConverter}
    {ji : Fin m × Fin n} (h : learnCell E rule t acts acc ji = .ok acc')
    (hacc : ∀ j i, acc.1 j i = E.getState (acc.2.1 j i)) :
    ∀ j i, acc'.1 j i = E.getState (acc'.2.1 j i) := by
  unfold learnCell at h
  obtain ⟨r, _, hpure⟩ := exceptBind_eq_ok h
  cases hpure
  intro j i
  by_cases hji : j = ji.1 ∧ i = ji.2
  · simp [hji]
  · simp [hji, hacc j i]

theorem foldlM_learnCell_sync {m n : ℕ} (E : ElementModel) (rule : LearningRule m n)
    (t : ℝ) (acts : List ℝ) :
    ∀ (cells : List (Fin m × Fin n))
      (acc : (Fin m → Fin n → ℝ) × (Fin m → Fin n → E.S) × VoltageConverter),
      (∀ j i, acc.1 j i = E.getState (acc.2.1 j i)) →
      ∀ r, cells.foldlM (learnCell E rule t acts) acc = .ok r →
        ∀ j i, r.1 j i = E.getState (r.2.1 j i)
  | [], acc, hacc, r, hr => by
      simp only [List.foldlM_nil] at hr
      cases hr
      exact hacc
  | c :: cs, acc, hacc, r, hr => by
      rw [List.foldlM_cons] at hr
      obtain ⟨acc', hstep, hrest⟩ := exceptBind_eq_ok hr
      exact foldlM_learnCell_sync E rule t acts cs acc'
        (learnCell_ok_sync hstep hacc) r hrest

theorem learnStep_ok_sync {m n : ℕ} {E : ElementModel} {rule : LearningRule m n}
    {st : MemristorArray E m n} {t : ℝ} {acts : List ℝ}
    {out : List ℝ} {st' : MemristorArray E m n}
    (h : learnStep E rule st t acts = .ok (out, st'))
    (hs : WeightsSync E st) : WeightsSync E st' := by
  unfold learnStep at h
  obtain ⟨acc, hfold, hpure⟩ := exceptBind_eq_ok h
  cases hpure
  exact foldlM_learnCell_sync E rule t acts _
    (st.weights, st.memristors, st.conv) (fun j i => hs j i) acc hfold

/-- Claim C1: the weights/conductance synchronisation invariant.  It holds
immediately after `MemristorArray.__init__`, and it is preserved by every
completed invocation of `__call__` — through the inference path (weights and
resistances untouched), the learning path (the rule updates `weights[j,i]`
in lock-step with each pulse) and the logging epilogue (`save_state` moves
no conductance).  `E.getState` is the element's `get_state()`: the scaled
conductance of a single device, the signed scaled-conductance difference of
a pair. -/
theorem C1_weights_sync {m n : ℕ} (E : ElementModel) (rule : LearningRule m n)
    (conv : VoltageConverter) (seed : ℕ) (st : MemristorArray E m n)
    (t : ℝ) (x : List ℝ) (hInv : WeightsSync E st) :
    WeightsSync E (mkMemristorArray E m n conv seed)
    ∧ ∀ ret st', MemristorArray.call E rule st t x = .ok (ret, st') →
        WeightsSync E st' := by
  constructor
  · intro j i
    rfl
  · intro ret st' hcall
    unfold MemristorArray.call at hcall
    obtain ⟨rst, hbig, hrest⟩ := exceptBind_eq_ok hcall
    obtain ⟨st₂, hlog, hpure⟩ := exceptMap_eq_ok hrest
    obtain ⟨heq1, heq2⟩ := Prod.mk.injEq .. ▸ hpure
    subst heq2
    have hsync₁ : WeightsSync E rst.2 := by
      by_cases hls : rule.has_learning_signal
      · rw [if_pos hls] at hbig
        cases hx : x.getLast? with
        | none => simp [hx] at hbig
        | some lastx =>
          simp only [hx] at hbig
          by_cases hr : rint lastx ≠ 0
          · rw [if_pos hr] at hbig
            obtain ⟨out, st₁⟩ := rst
            exact learnStep_ok_sync hbig hInv
          · rw [if_neg hr] at hbig
            obtain ⟨v, _, hpure₂⟩ := exceptMap_eq_ok hbig
            rw [← hpure₂]
            exact hInv
      · rw [if_neg hls] at hbig
        obtain ⟨out, st₁⟩ := rst
        exact learnStep_ok_sync hbig hInv
    exact logStep_ok_sync hlog hsync₁

/-- Witness for C1: a concrete single-device 1×1 controller; the invariant
hypothesis is discharged at the freshly constructed state. -/
theorem C1_weights_sync_witness :
    WeightsSync (singleElement (anoukLaw 1 0) (fun _ => 3) 1 1 1 2)
      (mkMemristorArray (singleElement (anoukLaw 1 0) (fun _ => 3) 1 1 1 2) 1 1
        (.base 1) 0) :=
  (C1_weights_sync (singleElement (anoukLaw 1 0) (fun _ => 3) 1 1 1 2)
    ⟨true, false, fun _ _ _ _ => 0, fun _ _ => [], none⟩ (.base 1) 0
    (mkMemristorArray (singleElement (anoukLaw 1 0) (fun _ => 3) 1 1 1 2) 1 1
      (.base 1) 0) 0 [0, 0] (fun _ _ => rfl)).1

theorem resSnap_logStep {m n : ℕ} {E : ElementModel} {rule : LearningRule m n}
    {st st₂ : MemristorArray E m n} (h : logStep E rule st = .ok st₂) :
    resSnap E st₂ = resSnap E st := by
  unfold logStep at h
  split at h
  · cases h
    simp [resSnap, E.res_save_state]
  · cases h

/-- Claim C2: with a learning-flagged rule and a trailing flag that rounds to
0 (`np.rint`), `__call__` takes the inference path: its result, when the call
completes, is exactly the matrix-vector product of the current `weights` with
the input activities (the trailing flag stripped, and the activities
truncated to `input_size` when the rule also carries an error signal),
composed with the logging epilogue; and no device is pulsed — the
member-device resistances of every element are unchanged. -/
theorem C2_infer_readout {m n : ℕ} (E : ElementModel) (rule : LearningRule m n)
    (st : MemristorArray E m n) (t : ℝ) (acts : List ℝ) (flag : ℝ)
    (hls : rule.has_learning_signal = true) (hflag : rint flag = 0) :
    MemristorArray.call E rule st t (acts ++ [flag]) =
      (matVec st.weights (if rule.has_error_signal then acts.take n else acts)).bind
        (fun r => (logStep E rule st).map fun st₂ => (r, st₂))
    ∧ (MemristorArray.call E rule st t (acts ++ [flag])).map (fun p => resSnap E p.2)
        = (MemristorArray.call E rule st t (acts ++ [flag])).map
            (fun _ => resSnap E st) := by
  have hchar : MemristorArray.call E rule st t (acts ++ [flag]) =
      (matVec st.weights (if rule.has_error_signal then acts.take n else acts)).bind
        (fun r => (logStep E rule st).map fun st₂ => (r, st₂)) := by
    unfold MemristorArray.call
    rw [if_pos hls]
    simp only [List.getLast?_concat, List.dropLast_concat]
    rw [if_neg (by simp [hflag])]
    cases hmv : matVec st.weights (if rule.has_error_signal then acts.take n else acts) with
    | error s => simp [Except.map, exceptBind_error, Except.bind]
    | ok r => simp [Except.map, exceptBind_ok, Except.bind]
  refine ⟨hchar, ?_⟩
  rw [hchar]
  cases hmv : matVec st.weights (if rule.has_error_signal then acts.take n else acts) with
  | error s => simp [Except.map, Except.bind]
  | ok r =>
    cases hlog : logStep E rule st with
    | error s => simp [Except.map, Except.bind, hlog]
    | ok st₂ => simp [Except.map, Except.bind, hlog, resSnap_logStep hlog]

/-- Witness for C2: the hand-computed 2×2 inference example — weights
`[[1,2],[3,4]]`, input activities `[1,1]`, flag 0 — returns `[3,7]`. -/
theorem C2_infer_readout_witness :
    ruleW.has_learning_signal = true ∧ rint 0 = 0 ∧
    (MemristorArray.call elemW ruleW stW 0 ([1, 1] ++ [0])).map Prod.fst
      = .ok [3, 7] := by
  have hflag : rint (0 : ℝ) = 0 := by norm_num [rint]
  refine ⟨rfl, hflag, ?_⟩
  have h := (C2_infer_readout elemW ruleW stW 0 [1, 1] 0 rfl hflag).1
  rw [h]
  have hmv : matVec stW.weights
      (if ruleW.has_error_signal then List.take 2 [(1:ℝ), 1] else [(1:ℝ), 1])
      = .ok [3, 7] := by
    simp only [ruleW, Bool.false_eq_true, if_false, matVec, stW]
    norm_num [Fin.sum_univ_two, List.getD]
    simp [List.finRange_succ, List.finRange_zero]
  rw [hmv]
  have hlog : ∃ st₂, logStep elemW ruleW stW = .ok st₂ := by
    simp [logStep]
  obtain ⟨st₂, hlog⟩ := hlog
  simp [hlog, Except.map, Except.bind]

/-! ### Pulse monotonicity (claim C3) -/

theorem anouk_step_bounds {r0 r1 e R : ℝ} (he : e < 0) (h1 : 0 < r1) (h0 : r0 < R) :
    r0 < r0 + r1 * (((R - r0) / r1) ^ (1 / e) + 1) ^ e ∧
      r0 + r1 * (((R - r0) / r1) ^ (1 / e) + 1) ^ e < R := by
  have hxpos : 0 < (R - r0) / r1 := div_pos (sub_pos.2 h0) h1
  have hnpos : 0 < ((R - r0) / r1) ^ (1 / e) := Real.rpow_pos_of_pos hxpos _
  have hlt : (((R - r0) / r1) ^ (1 / e) + 1) ^ e < (((R - r0) / r1) ^ (1 / e)) ^ e :=
    Real.rpow_lt_rpow_of_neg hnpos (lt_add_one _) he
  have hid : (((R - r0) / r1) ^ (1 / e)) ^ e = (R - r0) / r1 := by
    rw [← Real.rpow_mul hxpos.le, one_div_mul_cancel (ne_of_lt he), Real.rpow_one]
  have hpos2 : 0 < (((R - r0) / r1) ^ (1 / e) + 1) ^ e :=
    Real.rpow_pos_of_pos (by linarith) _
  constructor
  · nlinarith [mul_pos h1 hpos2]
  · rw [hid] at hlt
    have h3 : r1 * ((((R - r0) / r1) ^ (1 / e) + 1) ^ e) < r1 * ((R - r0) / r1) :=
      mul_lt_mul_of_pos_left hlt h1
    have h4 : r1 * ((R - r0) / r1) = R - r0 := by field_simp
    linarith

theorem anoukBi_step_neg_bounds {e R : ℝ} (he : e < 0) (hR : R < 1000000000) :
    R < 1000000000 -
        1000000000 * ((((1000000000 : ℝ) - R) / 1000000000) ^ (1 / e) + 1) ^ e ∧
      1000000000 -
        1000000000 * ((((1000000000 : ℝ) - R) / 1000000000) ^ (1 / e) + 1) ^ e
        < 1000000000 := by
  have hr3 : (0 : ℝ) < 1000000000 := by norm_num
  have hxpos : 0 < ((1000000000 : ℝ) - R) / 1000000000 := div_pos (by linarith) hr3
  have hnpos : 0 < (((1000000000 : ℝ) - R) / 1000000000) ^ (1 / e) :=
    Real.rpow_pos_of_pos hxpos _
  have hlt : ((((1000000000 : ℝ) - R) / 1000000000) ^ (1 / e) + 1) ^ e
      < ((((1000000000 : ℝ) - R) / 1000000000) ^ (1 / e)) ^ e :=
    Real.rpow_lt_rpow_of_neg hnpos (lt_add_one _) he
  have hid : ((((1000000000 : ℝ) - R) / 1000000000) ^ (1 / e)) ^ e
      = ((1000000000 : ℝ) - R) / 1000000000 := by
    rw [← Real.rpow_mul hxpos.le, one_div_mul_cancel (ne_of_lt he), Real.rpow_one]
  have hpos2 : 0 < ((((1000000000 : ℝ) - R) / 1000000000) ^ (1 / e) + 1) ^ e :=
    Real.rpow_pos_of_pos (by linarith) _
  constructor
  · rw [hid] at hlt
    have h3 : (1000000000 : ℝ) * (((((1000000000 : ℝ) - R) / 1000000000) ^ (1 / e) + 1) ^ e)
        < 1000000000 * (((1000000000 : ℝ) - R) / 1000000000) :=
      mul_lt_mul_of_pos_left hlt hr3
    have h4 : (1000000000 : ℝ) * (((1000000000 : ℝ) - R) / 1000000000)
        = 1000000000 - R := by field_simp
    linarith
  · nlinarith [mul_pos hr3 hpos2]

theorem pulseSteps_anouk_pos (a b V : ℝ) (he : a + b * V < 0) :
    ∀ (k : ℕ) (m : Memristor), 0 < m.r_1 → m.r_0 < m.r_curr →
      ∃ r', pulseSteps (anoukLaw a b) V k m = .ok { m with r_curr := r' } ∧
        m.r_0 < r' ∧ r' ≤ m.r_curr
  | 0, m, _, h0 => ⟨m.r_curr, rfl, h0, le_refl _⟩
  | k + 1, m, h1, h0 => by
    have hstep := @anouk_step_bounds m.r_0 m.r_1 (a + b * V) m.r_curr he h1 h0
    obtain ⟨r', hk, hlow, hhigh⟩ :=
      pulseSteps_anouk_pos a b V he k
        { m with r_curr := m.r_0 + m.r_1 *
            (((m.r_curr - m.r_0) / m.r_1) ^ (1 / (a + b * V)) + 1) ^ (a + b * V) }
        h1 hstep.1
    refine ⟨r', ?_, hlow, le_trans hhigh (le_of_lt hstep.2)⟩
    simp only [pulseSteps, anoukLaw]
    exact hk

theorem pulseSteps_anoukBi_neg (a b c d V : ℝ) (hV : V < 0) (he : c + d * (-V) < 0) :
    ∀ (k : ℕ) (m : Memristor), m.r_curr < 1000000000 →
      ∃ r', pulseSteps (anoukBidirectionalLaw a b c d) V k m = .ok { m with r_curr := r' } ∧
        m.r_curr ≤ r' ∧ r' < 1000000000
  | 0, m, hR => ⟨m.r_curr, rfl, le_refl _, hR⟩
  | k + 1, m, hR => by
    have hstep := @anoukBi_step_neg_bounds (c + d * (-V)) m.r_curr he hR
    obtain ⟨r', hk, hlow, hhigh⟩ :=
      pulseSteps_anoukBi_neg a b c d V hV he k
        { m with r_curr := 1000000000 - 1000000000 *
            ((((1000000000 : ℝ) - m.r_curr) / 1000000000) ^ (1 / (c + d * (-V))) + 1)
              ^ (c + d * (-V)) }
        hstep.2
    refine ⟨r', ?_, le_trans (le_of_lt hstep.1) hlow, hhigh⟩
    simp only [pulseSteps, anoukBidirectionalLaw, not_le.2 hV, lt_asymm hV, hV,
      if_false, if_true, ite_true, ite_false]
    exact hk

theorem pulse_anouk_pos (a b : ℝ) (conv : VoltageConverter) (m : Memristor) (s : ℚ)
    (hs : 0 < s) (he : a + b * m.base_voltage < 0) (h1 : 0 < m.r_1)
    (h0 : m.r_0 < m.r_curr) :
    ∃ ret r' conv', m.pulse (anoukLaw a b) conv s = .ok (ret, { m with r_curr := r' }, conv')
      ∧ m.r_0 < r' ∧ r' ≤ m.r_curr := by
  have hq : qsign s = 1 := by simp [qsign, hs]
  have hV : ((qsign s : ℚ) : ℝ) * m.base_voltage = m.base_voltage := by
    rw [hq]; push_cast; ring
  obtain ⟨r', hk, hlow, hhigh⟩ :=
    pulseSteps_anouk_pos a b (((qsign s : ℚ) : ℝ) * m.base_voltage)
      (by rw [hV]; exact he) ((if s ≠ 0 then conv.call s else (0, conv)).1) m h1 h0
  refine ⟨Memristor.condVal { m with r_curr := r' } true m.gain, r',
    (if s ≠ 0 then conv.call s else (0, conv)).2, ?_, hlow, hhigh⟩
  simp only [Memristor.pulse]
  rw [hk]
  rfl

theorem pulse_anouk_neg (a b : ℝ) (conv : VoltageConverter) (m : Memristor) (s : ℚ)
    (hs : s < 0) (he : a + b * (-m.base_voltage) < 0) (h1 : 0 < m.r_1)
    (h0 : m.r_0 < m.r_curr) :
    ∃ ret r' conv', m.pulse (anoukLaw a b) conv s = .ok (ret, { m with r_curr := r' }, conv')
      ∧ m.r_0 < r' ∧ r' ≤ m.r_curr := by
  have hq : qsign s = -1 := by simp [qsign, asymm hs, hs]
  have hV : ((qsign s : ℚ) : ℝ) * m.base_voltage = -m.base_voltage := by
    rw [hq]; push_cast; ring
  obtain ⟨r', hk, hlow, hhigh⟩ :=
    pulseSteps_anouk_pos a b (((qsign s : ℚ) : ℝ) * m.base_voltage)
      (by rw [hV]; exact he) ((if s ≠ 0 then conv.call s else (0, conv)).1) m h1 h0
  refine ⟨Memristor.condVal { m with r_curr := r' } true m.gain, r',
    (if s ≠ 0 then conv.call s else (0, conv)).2, ?_, hlow, hhigh⟩
  simp only [Memristor.pulse]
  rw [hk]
  rfl

theorem pulse_anouk_strict (a b : ℝ) (conv conv' : VoltageConverter) (k : ℕ)
    (m : Memristor) (s : ℚ) (hs : s ≠ 0) (hconv : conv.call s = (k + 1, conv'))
    (he : a + b * (((qsign s : ℚ) : ℝ) * m.base_voltage) < 0)
    (h1 : 0 < m.r_1) (h0 : m.r_0 < m.r_curr) :
    ∃ ret r', m.pulse (anoukLaw a b) conv s = .ok (ret, { m with r_curr := r' }, conv')
      ∧ m.r_0 < r' ∧ r' < m.r_curr := by
  have hsc : (if s ≠ 0 then conv.call s else (0, conv)) = (k + 1, conv') := by
    rw [if_pos hs, hconv]
  have hstep := @anouk_step_bounds m.r_0 m.r_1
    (a + b * (((qsign s : ℚ) : ℝ) * m.base_voltage)) m.r_curr he h1 h0
  obtain ⟨r', hk, hlow, hhigh⟩ :=
    pulseSteps_anouk_pos a b (((qsign s : ℚ) : ℝ) * m.base_voltage) he k
      { m with r_curr := m.r_0 + m.r_1 *
          (((m.r_curr - m.r_0) / m.r_1)
              ^ (1 / (a + b * (((qsign s : ℚ) : ℝ) * m.base_voltage))) + 1)
            ^ (a + b * (((qsign s : ℚ) : ℝ) * m.base_voltage)) }
      h1 hstep.1
  have hsteps : pulseSteps (anoukLaw a b) (((qsign s : ℚ) : ℝ) * m.base_voltage) (k + 1) m
      = .ok { m with r_curr := r' } := by
    simp only [pulseSteps, anoukLaw]
    exact hk
  refine ⟨Memristor.condVal { m with r_curr := r' } true m.gain, r', ?_, hlow,
    lt_of_le_of_lt hhigh hstep.2⟩
  simp only [Memristor.pulse, hsc]
  rw [hsteps]
  rfl

theorem pulse_anoukBi_neg (a b c d : ℝ) (conv : VoltageConverter) (m : Memristor) (s : ℚ)
    (hs : s < 0) (hbv : 0 < m.base_voltage) (he : c + d * m.base_voltage < 0)
    (hR : m.r_curr < 1000000000) :
    ∃ ret r' conv', m.pulse (anoukBidirectionalLaw a b c d) conv s
        = .ok (ret, { m with r_curr := r' }, conv')
      ∧ m.r_curr ≤ r' ∧ r' < 1000000000 := by
  have hq : qsign s = -1 := by simp [qsign, asymm hs, hs]
  have hV : ((qsign s : ℚ) : ℝ) * m.base_voltage = -m.base_voltage := by
    rw [hq]; push_cast; ring
  have hVneg : ((qsign s : ℚ) : ℝ) * m.base_voltage < 0 := by rw [hV]; linarith
  have hee : c + d * (-(((qsign s : ℚ) : ℝ) * m.base_voltage)) < 0 := by
    rw [hV, neg_neg]; exact he
  obtain ⟨r', hk, hlow, hhigh⟩ :=
    pulseSteps_anoukBi_neg a b c d (((qsign s : ℚ) : ℝ) * m.base_voltage) hVneg hee
      ((if s ≠ 0 then conv.call s else (0, conv)).1) m hR
  refine ⟨Memristor.condVal { m with r_curr := r' } true m.gain, r',
    (if s ≠ 0 then conv.call s else (0, conv)).2, ?_, hlow, hhigh⟩
  simp only [Memristor.pulse]
  rw [hk]
  rfl

theorem pulseTraj_anouk_pos (a b : ℝ) :
    ∀ (signals : List ℚ) (conv : VoltageConverter) (m : Memristor),
      a + b * m.base_voltage < 0 → 0 < m.r_1 → m.r_0 < m.r_curr →
      (∀ s ∈ signals, 0 < s) →
      List.Chain' (fun x y => y ≤ x)
        (m.r_curr :: pulseTraj (anoukLaw a b) conv m signals)
      ∧ ∀ r ∈ pulseTraj (anoukLaw a b) conv m signals, m.r_0 < r
  | [], conv, m, _, _, _, _ => by simp [pulseTraj]
  | s :: rest, conv, m, he, h1, h0, hsig => by
    obtain ⟨ret, r', conv', hp, hlow, hhigh⟩ :=
      pulse_anouk_pos a b conv m s (hsig s (by simp)) he h1 h0
    have ih := pulseTraj_anouk_pos a b rest conv' { m with r_curr := r' }
      he h1 hlow (fun t ht => hsig t (by simp [ht]))
    rw [pulseTraj, hp]
    constructor
    · rw [List.chain'_cons]
      exact ⟨hhigh, ih.1⟩
    · intro r hr
      rcases List.mem_cons.1 hr with hr | hr
      · exact hr ▸ hlow
      · exact ih.2 r hr

theorem pulseTraj_anouk_neg (a b : ℝ) :
    ∀ (signals : List ℚ) (conv : VoltageConverter) (m : Memristor),
      a + b * (-m.base_voltage) < 0 → 0 < m.r_1 → m.r_0 < m.r_curr →
      (∀ s ∈ signals, s < 0) →
      List.Chain' (fun x y => y ≤ x)
        (m.r_curr :: pulseTraj (anoukLaw a b) conv m signals)
      ∧ ∀ r ∈ pulseTraj (anoukLaw a b) conv m signals, m.r_0 < r
  | [], conv, m, _, _, _, _ => by simp [pulseTraj]
  | s :: rest, conv, m, he, h1, h0, hsig => by
    obtain ⟨ret, r', conv', hp, hlow, hhigh⟩ :=
      pulse_anouk_neg a b conv m s (hsig s (by simp)) he h1 h0
    have ih := pulseTraj_anouk_neg a b rest conv' { m with r_curr := r' }
      he h1 hlow (fun t ht => hsig t (by simp [ht]))
    rw [pulseTraj, hp]
    constructor
    · rw [List.chain'_cons]
      exact ⟨hhigh, ih.1⟩
    · intro r hr
      rcases List.mem_cons.1 hr with hr | hr
      · exact hr ▸ hlow
      · exact ih.2 r hr

theorem pulseTraj_anoukBi_neg (a b c d : ℝ) :
    ∀ (signals : List ℚ) (conv : VoltageConverter) (m : Memristor),
      0 < m.base_voltage → c + d * m.base_voltage < 0 → m.r_curr < 1000000000 →
      (∀ s ∈ signals, s < 0) →
      List.Chain' (fun x y => x ≤ y)
        (m.r_curr :: pulseTraj (anoukBidirectionalLaw a b c d) conv m signals)
      ∧ ∀ r ∈ pulseTraj (anoukBidirectionalLaw a b c d) conv m signals, r < 1000000000
  | [], conv, m, _, _, _, _ => by simp [pulseTraj]
  | s :: rest, conv, m, hbv, he, hR, hsig => by
    obtain ⟨ret, r', conv', hp, hlow, hhigh⟩ :=
      pulse_anoukBi_neg a b c d conv m s (hsig s (by simp)) hbv he hR
    have ih := pulseTraj_anoukBi_neg a b c d rest conv' { m with r_curr := r' }
      hbv he hhigh (fun t ht => hsig t (by simp [ht]))
    rw [pulseTraj, hp]
    constructor
    · rw [List.chain'_cons]
      exact ⟨hlow, ih.1⟩
    · intro r hr
      rcases List.mem_cons.1 hr with hr | hr
      · exact hr ▸ hhigh
      · exact ih.2 r hr

/-- Counterexample to claim C3 as stated: a pulse driven by a strictly
negative signal (`V < 0`) on `MemristorAnouk` at its defaults strictly
DECREASES the resistance — the exponent `a + b·V = -0.128 + 0.0522 < 0`
still points downward — so the negative-voltage trajectory is not
non-decreasing.  The device is unidirectional: both voltage signs move
`r_curr` toward `r_0`. -/
theorem C3_counterexample_anouk_negative_voltage_decreases :
    ¬ List.Chain' (fun x y => x ≤ y)
        (anoukDevW.r_curr ::
          pulseTraj (anoukLaw (-0.128) (-0.522)) (.base 1) anoukDevW [-1]) := by
  have hs : (-1 : ℚ) ≠ 0 := by decide
  have hconv : (VoltageConverter.base 1).call (-1) = (0 + 1, .base 1) := rfl
  have hq : qsign (-1 : ℚ) = -1 := by decide
  have he : (-0.128 : ℝ) + (-0.522) *
      (((qsign (-1 : ℚ) : ℚ) : ℝ) * anoukDevW.base_voltage) < 0 := by
    rw [hq]
    push_cast
    norm_num [anoukDevW]
  obtain ⟨ret, r', hp, hlow, hhigh⟩ :=
    pulse_anouk_strict (-0.128) (-0.522) (.base 1) (.base 1) 0 anoukDevW (-1) hs hconv he
      (by norm_num [anoukDevW]) (by norm_num [anoukDevW])
  rw [pulseTraj, hp]
  intro hch
  rw [List.chain'_cons] at hch
  exact absurd hch.1 (not_le.2 hhigh)

/-- Claim C3 (amended): for the empirical power-law devices at their fitted
negative exponents, repeated `pulse` calls with same-sign nonzero signals
move `r_curr` monotonically in that device's law-defined direction and never
cross the law's resistance bound for that direction, for any number of
pulses and any quantizer.  `MemristorAnouk`'s law-defined direction is
downward for BOTH voltage signs (exponent `a + b·V < 0` either way at the
defaults): its trajectory is non-increasing and stays strictly above `r_0`
under positive as well as under negative signals.
`MemristorAnoukBidirectional` under negative signals is non-decreasing and
stays strictly below the anchor `r3 = 1e9`.  (The one-directional power-law
device is excluded: a negative-signal pulse raises `TypeError` — claim
C5.) -/
theorem C3_pulse_monotone_bounded :
    (∀ (a b : ℝ) (conv : VoltageConverter) (m : Memristor) (signals : List ℚ),
      a + b * m.base_voltage < 0 → 0 < m.r_1 → m.r_0 < m.r_curr →
      (∀ s ∈ signals, 0 < s) →
      List.Chain' (fun x y => y ≤ x)
        (m.r_curr :: pulseTraj (anoukLaw a b) conv m signals)
      ∧ ∀ r ∈ pulseTraj (anoukLaw a b) conv m signals, m.r_0 < r)
    ∧ (∀ (a b : ℝ) (conv : VoltageConverter) (m : Memristor) (signals : List ℚ),
      a + b * (-m.base_voltage) < 0 → 0 < m.r_1 → m.r_0 < m.r_curr →
      (∀ s ∈ signals, s < 0) →
      List.Chain' (fun x y => y ≤ x)
        (m.r_curr :: pulseTraj (anoukLaw a b) conv m signals)
      ∧ ∀ r ∈ pulseTraj (anoukLaw a b) conv m signals, m.r_0 < r)
    ∧ (∀ (a b c d : ℝ) (conv : VoltageConverter) (m : Memristor) (signals : List ℚ),
      0 < m.base_voltage → c + d * m.base_voltage < 0 → m.r_curr < 1000000000 →
      (∀ s ∈ signals, s < 0) →
      List.Chain' (fun x y => x ≤ y)
        (m.r_curr :: pulseTraj (anoukBidirectionalLaw a b c d) conv m signals)
      ∧ ∀ r ∈ pulseTraj (anoukBidirectionalLaw a b c d) conv m signals, r < 1000000000) :=
  ⟨fun a b conv m signals he h1 h0 hsig =>
      pulseTraj_anouk_pos a b signals conv m he h1 h0 hsig,
   fun a b conv m signals he h1 h0 hsig =>
      pulseTraj_anouk_neg a b signals conv m he h1 h0 hsig,
   fun a b c d conv m signals hbv he hR hsig =>
      pulseTraj_anoukBi_neg a b c d signals conv m hbv he hR hsig⟩

/-- Witness for C3: the `MemristorAnouk` defaults `a = -0.128`, `b = -0.522`
with `base_voltage = 1e-1` (exponents `-0.1802 < 0` at `V = +0.1` and
`-0.0758 < 0` at `V = -0.1`), a device in the construction range, the
10-level quantizer and one pulse per direction and device. -/
theorem C3_pulse_monotone_bounded_witness :
    ((-0.128 : ℝ) + (-0.522) * anoukDevW.base_voltage < 0
      ∧ (-0.128 : ℝ) + (-0.522) * (-anoukDevW.base_voltage) < 0
      ∧ (0 : ℝ) < anoukDevW.r_1 ∧ anoukDevW.r_0 < anoukDevW.r_curr
      ∧ anoukDevW.r_curr < 1000000000)
    ∧ List.Chain' (fun x y => y ≤ x)
        (anoukDevW.r_curr ::
          pulseTraj (anoukLaw (-0.128) (-0.522)) (freshLevels 10) anoukDevW [1])
    ∧ List.Chain' (fun x y => y ≤ x)
        (anoukDevW.r_curr ::
          pulseTraj (anoukLaw (-0.128) (-0.522)) (freshLevels 10) anoukDevW [-1])
    ∧ List.Chain' (fun x y => x ≤ y)
        (anoukDevW.r_curr ::
          pulseTraj (anoukBidirectionalLaw (-0.128) (-0.522) (-0.128) (-0.522))
            (freshLevels 10) anoukDevW [-1]) := by
  have he : (-0.128 : ℝ) + (-0.522) * anoukDevW.base_voltage < 0 := by
    norm_num [anoukDevW]
  have hen : (-0.128 : ℝ) + (-0.522) * (-anoukDevW.base_voltage) < 0 := by
    norm_num [anoukDevW]
  have h1 : (0 : ℝ) < anoukDevW.r_1 := by norm_num [anoukDevW]
  have h0 : anoukDevW.r_0 < anoukDevW.r_curr := by norm_num [anoukDevW]
  have hR : anoukDevW.r_curr < 1000000000 := by norm_num [anoukDevW]
  have hbv : (0 : ℝ) < anoukDevW.base_voltage := by norm_num [anoukDevW]
  refine ⟨⟨he, hen, h1, h0, hR⟩, ?_, ?_, ?_⟩
  · exact (C3_pulse_monotone_bounded.1 (-0.128) (-0.522) (freshLevels 10) anoukDevW [1]
      he h1 h0 (by norm_num)).1
  · exact (C3_pulse_monotone_bounded.2.1 (-0.128) (-0.522) (freshLevels 10) anoukDevW [-1]
      hen h1 h0 (by norm_num)).1
  · exact (C3_pulse_monotone_bounded.2.2 (-0.128) (-0.522) (-0.128) (-0.522)
      (freshLevels 10) anoukDevW [-1] hbv he hR (by norm_num)).1

/-- Witness for C10 at the default 10-level fresh instance. -/
theorem C10_fresh_zero_signal_saturates_witness :
    1 ≤ 10 ∧ ((freshLevels 10).call 0).1 = 10 :=
  ⟨by decide, C10_fresh_zero_signal_saturates.1 10 (by decide)⟩
